import Mathlib

/-!
# Verification of the `BooleanColumn` columnar kernels

Shallow embedding of `src/common/datavalues/src/columns/boolean/mod.rs`
(the bit-packed boolean column of the columnar value engine) together with
proofs of the specified properties of its operations: `slice`, `filter`,
`scatter`, `replicate`, single-row access, arrow interop and the
`ScalarColumn` construction helpers.

The external `arrow2` primitives (`Bitmap`, `MutableBitmap`, the word-chunk
iterators and `BooleanArray`) are not part of the repository sources; they
are modelled from the specification's description of them (spec sections 2,
3, 4.3 and 4.6): a `Bitmap` is a shared byte buffer plus a bit `offset` and
a logical `length`, bit values are read from the logical window, chunked
iteration processes the logical bit sequence in 64-bit machine words, and
`MutableBitmap` is a growable bit buffer.

Machine integers: `usize` values are embedded as `Nat`; where the source
performs `usize` addition whose wrap-around behaviour matters (the `slice`
bound check, in release builds `offset + length` wraps modulo `2^64`), the
embedding reduces the sum modulo `USIZE = 2^64` explicitly.

A Rust `panic!`/`assert!` failure is modelled by `Option`: `none` is the
fatal precondition violation, `some` the normal result.
-/

namespace Databend

/-- The value `usize::MAX + 1`: the modulus of 64-bit machine addition. -/
def USIZE : Nat := 2 ^ 64

/-- Modelled from the spec: `Bitmap` (spec section 3) is an immutable, shareable,
packed sequence of bits — a shared backing buffer of bits (`bytes`, the
"underlying word-aligned storage", kept here at bit granularity), a start
`offset` into it and a logical `length`.  The logical bit sequence is the
window `bytes[offset .. offset + length)`. -/
structure Bitmap where
  bytes : List Bool
  offset : Nat
  length : Nat
deriving DecidableEq

/-- The logical bit sequence of a bitmap: `length` bits starting at `offset`. -/
def Bitmap.toList (b : Bitmap) : List Bool :=
  (b.bytes.drop b.offset).take b.length

/-- Well-formedness: the logical window lies inside the backing buffer. -/
def Bitmap.wf (b : Bitmap) : Prop :=
  b.offset + b.length ≤ b.bytes.length

instance (b : Bitmap) : Decidable b.wf :=
  inferInstanceAs (Decidable (b.offset + b.length ≤ b.bytes.length))

/-- A freshly built bitmap owning its buffer (offset 0, full length), as
produced by freezing a `MutableBitmap`. -/
def Bitmap.ofList (l : List Bool) : Bitmap :=
  ⟨l, 0, l.length⟩

/-- Modelled from the spec: the cached unset-bit count of a bitmap
(`null_count`), spec section 3: "count of set bits" = `len - unset_count`. -/
def Bitmap.nullCount (b : Bitmap) : Nat :=
  b.toList.count false

/-- Modelled from the spec: `Bitmap::get_bit` — bit-level random access into
the logical window (total here; the source panics when `i ≥ len`, and every
use below is guarded by that bound). -/
def Bitmap.getBit (b : Bitmap) (i : Nat) : Bool :=
  b.toList.getD i false

/-- Modelled from the spec: `Bitmap::slice_unchecked(offset, length)` — the
zero-copy sub-range view: same backing buffer, advanced offset, new length
(spec sections 3 and 9, "zero-copy view ... result shares the backing
buffer"). -/
def Bitmap.sliceUnchecked (b : Bitmap) (offset length : Nat) : Bitmap :=
  ⟨b.bytes, b.offset + offset, length⟩

/-- Embeds `BooleanColumn` (`mod.rs` line 32): wraps exactly one `Bitmap`. -/
structure BooleanColumn where
  values : Bitmap
deriving DecidableEq

/-- Embeds `Column::len` (`mod.rs` line 82): the bitmap's length. -/
def BooleanColumn.len (c : BooleanColumn) : Nat :=
  c.values.length

/-- The logical value sequence of a column (used to state properties). -/
def BooleanColumn.vals (c : BooleanColumn) : List Bool :=
  c.values.toList

theorem BooleanColumn.vals_def (c : BooleanColumn) : c.vals = c.values.toList :=
  rfl

/-- Well-formedness of a column: its bitmap is well-formed. -/
def BooleanColumn.wf (c : BooleanColumn) : Prop :=
  c.values.wf

instance (c : BooleanColumn) : Decidable c.wf :=
  inferInstanceAs (Decidable c.values.wf)

/-- Modelled from the spec: `MutableBooleanColumn` (the builder,
spec section 4.6; its source file `boolean/mutable.rs` is not under `src/`):
exclusively owned, growable, append-only bit buffer.  The capacity hint of
`with_capacity` has no observable effect on values and is not modelled. -/
structure MutableBooleanColumn where
  values : List Bool
deriving DecidableEq

/-- Modelled from the spec: `MutableBooleanColumn::with_capacity` — a fresh
empty builder (the capacity is only a pre-allocation hint). -/
def MutableBooleanColumn.withCapacity (_capacity : Nat) : MutableBooleanColumn :=
  ⟨[]⟩

/-- Modelled from the spec: `MutableBooleanColumn::append_value` — push one
bit at the end. -/
def MutableBooleanColumn.appendValue (b : MutableBooleanColumn) (v : Bool) : MutableBooleanColumn :=
  ⟨b.values ++ [v]⟩

/-- Modelled from the spec: `MutableBooleanColumn::to_column` — freeze the
accumulated bits into an immutable column. -/
def MutableBooleanColumn.toColumn (b : MutableBooleanColumn) : BooleanColumn :=
  ⟨Bitmap.ofList b.values⟩

/-- Modelled from the spec: the foreign columnar array (`BooleanArray`,
spec section 6): type tag (fixed to Boolean here) + packed values +
optional validity bitmap. -/
structure BooleanArray where
  values : Bitmap
  validity : Option Bitmap
deriving DecidableEq

/-- Embeds `Column::as_arrow_array` (`mod.rs` lines 90–93):
`BooleanArray::from_data(Boolean, self.values.clone(), None)`. -/
def BooleanColumn.asArrowArray (c : BooleanColumn) : BooleanArray :=
  ⟨c.values, none⟩

/-- Embeds `BooleanColumn::new` (`mod.rs` lines 44–48): keep the array's values
bitmap (a validity bitmap, if any, is dropped). -/
def BooleanColumn.ofArray (array : BooleanArray) : BooleanColumn :=
  ⟨array.values⟩

/-- Embeds `BooleanColumn::from_arrow_array` (`mod.rs` lines 50–58): downcast to
`BooleanArray` and wrap.  The embedding takes the array directly, modelling
the successful-downcast case (a failed downcast is a fatal type-mismatch
error and arises only when the argument is not a boolean array). -/
def BooleanColumn.fromArrowArray (array : BooleanArray) : BooleanColumn :=
  BooleanColumn.ofArray array

/-- Embeds `DataValue` (external collaborator, spec section 3): a tagged scalar;
only the variants relevant to single-row boolean access are modelled. -/
inductive DataValue where
  | Null : DataValue
  | Boolean : Bool → DataValue
deriving DecidableEq

/-- Embeds `Column::get` (`mod.rs` lines 196–198): decode one row as
`DataValue::Boolean(self.values.get_bit(index))`. -/
def BooleanColumn.get (c : BooleanColumn) (index : Nat) : DataValue :=
  DataValue.Boolean (c.values.getBit index)

/-- Embeds `ScalarColumn::get_data` (`mod.rs` lines 207–210): read one bit. -/
def BooleanColumn.getData (c : BooleanColumn) (idx : Nat) : Bool :=
  c.values.getBit idx

/-- Embeds `ScalarColumn::from_slice` (`mod.rs` lines 216–221): build a fresh
bitmap from the slice's bits. -/
def BooleanColumn.fromSlice (data : List Bool) : BooleanColumn :=
  ⟨Bitmap.ofList data⟩

/-- Embeds `ScalarColumn::from_iterator` (`mod.rs` lines 223–228):
`MutableBitmap::from_iter` over the produced items. -/
def BooleanColumn.fromIterator (it : List Bool) : BooleanColumn :=
  ⟨Bitmap.ofList it⟩

/-- Modelled from the spec: an external finite sequence together with its
reported size hint ("choosing a trusted-length fast path when the sequence
reports an exact size", spec section 4.6).  `sizeHintUpper` is the upper
component of Rust's `Iterator::size_hint`. -/
structure BoolIterator where
  items : List Bool
  sizeHintUpper : Option Nat
deriving DecidableEq

/-- Modelled from the spec: `MutableBitmap::from_trusted_len_iter_unchecked`
— consume the whole sequence trusting the reported exact length (the
trusted-length fast path builds the same bit sequence, skipping per-item
capacity checks). -/
def MutableBitmap.fromTrustedLenIterUnchecked (it : BoolIterator) : List Bool :=
  it.items

/-- Embeds `ScalarColumn::from_owned_iterator` (`mod.rs` lines 230–238): dispatch on
the size hint — a known upper bound takes the trusted-length fast path, an
unknown one the generic `from_iter` path. -/
def BooleanColumn.fromOwnedIterator (it : BoolIterator) : BooleanColumn :=
  match it.sizeHintUpper with
  | some _ => ⟨Bitmap.ofList (MutableBitmap.fromTrustedLenIterUnchecked it)⟩
  | none => BooleanColumn.fromIterator it.items

/-- Embeds `Column::slice` (`mod.rs` lines 99–109): assert
`offset + length <= self.len()` then take the zero-copy unchecked slice.
The `usize` sum `offset + length` is machine addition: in release builds it
wraps modulo `2^64`, so the asserted comparison sees the wrapped sum.
`none` models the failed assertion (panic). -/
def BooleanColumn.slice (c : BooleanColumn) (offset length : Nat) : Option BooleanColumn :=
  if (offset + length) % USIZE ≤ c.len then
    some ⟨c.values.sliceUnchecked offset length⟩
  else
    none

/-- Little-endian value of a bit sequence: bit `i` of the result is element
`i` of the list.  This is the value of a machine word produced by the
word-chunk iterator (`u64` chunks are read least-significant-bit-first from
the packed bitmap). -/
def bitsToNat : List Bool → Nat
  | [] => 0
  | b :: rest => (cond b 1 0) + 2 * bitsToNat rest

/-- Modelled from the spec: `BitChunksExact::<u64>::new(slice, length)`
(spec sections 2 and 4.3) — iterate the logical bit sequence as aligned
64-bit machine words, leaving the final `length % 64` bits as the
remainder. -/
def toChunks (l : List Bool) : List Nat × List Bool :=
  if l.length < 64 then ([], l)
  else
    let rest := toChunks (l.drop 64)
    (bitsToNat (l.take 64) :: rest.1, rest.2)
termination_by l.length
decreasing_by simp only [List.length_drop]; omega

/-- Embeds `u64::trailing_zeros` for a nonzero word: the index of the lowest set
bit (the source never calls it on zero — the loop guard is `mask != 0`; the
value at `0` is irrelevant here and fixed to `0`). -/
def ctz (m : Nat) : Nat :=
  if m = 0 then 0
  else if m % 2 = 1 then 0
  else ctz (m / 2) + 1
termination_by m
decreasing_by exact Nat.div_lt_self (by omega) (by omega)

/-- The inner loop of the filter kernel (`mod.rs` lines 126–133): while the
mask word is nonzero, take `n = mask.trailing_zeros()`, push the value bit
`chunk & (1 << n) != 0`, and clear the lowest set mask bit with
`mask &= mask - 1`. -/
def filterChunkLoop (chunk : Nat) (mask : Nat) : List Bool :=
  if mask = 0 then []
  else decide (chunk &&& (1 <<< ctz mask) ≠ 0) :: filterChunkLoop chunk (mask &&& (mask - 1))
termination_by mask
decreasing_by
  rename_i h
  have hle : mask &&& (mask - 1) ≤ mask - 1 := Nat.and_le_right
  omega

/-- Specification-side selection: the subsequence of `d`'s elements at the
positions where the same-length mask `m` is `true`, in ascending index
order (spec section 8, "filter order-preservation").  The remainder loop of
the kernel (`mod.rs` lines 135–142) is exactly this computation on the
non-word-aligned tail. -/
def maskFilter (d m : List Bool) : List Bool :=
  (d.zip m).filterMap (fun p => if p.2 then some p.1 else none)

/-- Embeds `Column::filter` (`mod.rs` lines 111–148): count the selected rows from
the mask's cached unset count; if every row is selected return `self`
unchanged (the fast path); otherwise process aligned 64-bit chunks of the
value and mask bit sequences with `filterChunkLoop` and then the remainder
bits one at a time. -/
def BooleanColumn.filter (c : BooleanColumn) (mask : BooleanColumn) : BooleanColumn :=
  let selected := mask.values.length - mask.values.nullCount
  if selected = c.len then c
  else
    let vc := toChunks c.values.toList
    let mc := toChunks mask.values.toList
    let main := ((vc.1.zip mc.1).map (fun p => filterChunkLoop p.1 p.2)).flatten
    let tail := (vc.2.zip mc.2).filterMap (fun p => if p.2 then some p.1 else none)
    ⟨Bitmap.ofList (main ++ tail)⟩

/-- The single pass of `Column::scatter` (`mod.rs` lines 156–161): for each
`(index, value)` pair append `value` to the builder at position `index`.
Rust's `builders[*index]` panics when `index` is out of bounds; the claims
assume every index is `< scattered_size`, under which `List.set`/`getD`
agree with the panicking access. -/
def scatterLoop (pairs : List (Nat × Bool)) (builders : List MutableBooleanColumn) :
    List MutableBooleanColumn :=
  pairs.foldl (fun bs p => bs.set p.1 ((bs.getD p.1 ⟨[]⟩).appendValue p.2)) builders

/-- Embeds `Column::scatter` (`mod.rs` lines 150–164): allocate `scattered_size`
empty builders, distribute the rows with `scatterLoop`, freeze each
builder. -/
def BooleanColumn.scatter (c : BooleanColumn) (indices : List Nat) (scatteredSize : Nat) :
    List BooleanColumn :=
  let builders := List.replicate scatteredSize (MutableBooleanColumn.withCapacity c.len)
  (scatterLoop (indices.zip c.values.toList) builders).map MutableBooleanColumn.toColumn

/-- Specification-side scatter: the values of the rows destined for
partition `j`, in source order. -/
def scatterSpec (pairs : List (Nat × Bool)) (j : Nat) : List Bool :=
  pairs.filterMap (fun p => if p.1 = j then some p.2 else none)

/-- Embeds `Column::replicate` (`mod.rs` lines 166–190): empty `offsets` yields
`self.slice(0, 0)`; otherwise walk the rows in order keeping
`previous_offset`, appending `offsets[i] - previous_offset` copies of row
`i`'s bit (`MutableBitmap::extend_constant`).  The `debug_assert!` on
`offsets.len() == self.len()` is compiled out in release builds and the
claims assume the lengths match.  `usize` subtraction appears only under
the claims' non-decreasing hypothesis, where it agrees with `Nat`
subtraction. -/
def BooleanColumn.replicate (c : BooleanColumn) (offsets : List Nat) : Option BooleanColumn :=
  if offsets = [] then c.slice 0 0
  else
    let final := (List.range c.len).foldl
      (fun (st : List Bool × Nat) i =>
        (st.1 ++ List.replicate (offsets.getD i 0 - st.2) (c.values.getBit i), offsets.getD i 0))
      ([], 0)
    some (MutableBooleanColumn.toColumn ⟨final.1⟩)

/-- Specification-side replicate (spec section 8, "replicate expansion"):
the concatenation over rows, threading the previous offset, of runs
`offsets[i] - offsets[i-1]` long of row `i`'s value. -/
def runsFrom (prev : Nat) : List Bool → List Nat → List Bool
  | v :: vs, o :: os => List.replicate (o - prev) v ++ runsFrom o vs os
  | _, _ => []

end Databend

namespace Databend

/-! ## Basic lemmas about the data model -/

theorem Bitmap.toList_ofList (l : List Bool) : (Bitmap.ofList l).toList = l := by
  simp [Bitmap.ofList, Bitmap.toList]

theorem Bitmap.wf_ofList (l : List Bool) : (Bitmap.ofList l).wf := by
  simp [Bitmap.ofList, Bitmap.wf]

theorem Bitmap.length_toList (b : Bitmap) (h : b.wf) : b.toList.length = b.length := by
  simp only [Bitmap.toList, List.length_take, List.length_drop]
  unfold Bitmap.wf at h
  omega

theorem BooleanColumn.vals_fromSlice (data : List Bool) :
    (BooleanColumn.fromSlice data).vals = data := by
  simp [BooleanColumn.fromSlice, BooleanColumn.vals, Bitmap.toList_ofList]

theorem BooleanColumn.len_fromSlice (data : List Bool) :
    (BooleanColumn.fromSlice data).len = data.length := rfl

/-! ## Bit-level lemmas for the word-chunked filter loop -/

theorem bitsToNat_cons_false (t : List Bool) : bitsToNat (false :: t) = 2 * bitsToNat t := by
  simp [bitsToNat]

theorem bitsToNat_cons_true (t : List Bool) : bitsToNat (true :: t) = 2 * bitsToNat t + 1 := by
  simp [bitsToNat]
  omega

theorem testBit_bitsToNat (l : List Bool) (i : Nat) :
    (bitsToNat l).testBit i = l.getD i false := by
  induction l generalizing i with
  | nil => simp [bitsToNat, Nat.zero_testBit]
  | cons b t ih =>
    cases i with
    | zero =>
      cases b
      · rw [bitsToNat_cons_false, Nat.testBit_zero]
        simp [Nat.mul_mod_right]
      · rw [bitsToNat_cons_true, Nat.testBit_zero]
        simp [Nat.mul_add_mod]
    | succ i =>
      have hdiv : bitsToNat (b :: t) / 2 = bitsToNat t := by
        cases b
        · rw [bitsToNat_cons_false]; omega
        · rw [bitsToNat_cons_true]; omega
      rw [Nat.testBit_succ, hdiv, ih]
      simp

theorem testBit_bitsToNat_cons (a : Bool) (dt : List Bool) (n : Nat) :
    (bitsToNat (a :: dt)).testBit (n + 1) = (bitsToNat dt).testBit n := by
  rw [testBit_bitsToNat, testBit_bitsToNat]
  simp

theorem ctz_odd (m : Nat) (h : m % 2 = 1) : ctz m = 0 := by
  rw [ctz]
  have : m ≠ 0 := by omega
  simp [this, h]

theorem ctz_even (m : Nat) (h0 : m ≠ 0) (h : m % 2 = 0) : ctz m = ctz (m / 2) + 1 := by
  rw [ctz]
  simp [h0, h]

theorem land_two_mul_pred (t : Nat) :
    2 * t &&& (2 * t - 1) = 2 * (t &&& (t - 1)) := by
  apply Nat.eq_of_testBit_eq
  intro i
  cases i with
  | zero =>
    rw [Nat.testBit_land, Nat.testBit_zero, Nat.testBit_zero, Nat.testBit_zero]
    simp [Nat.mul_mod_right]
  | succ i =>
    have h1 : 2 * t / 2 = t := by omega
    have h2 : (2 * t - 1) / 2 = t - 1 := by omega
    have h3 : 2 * (t &&& (t - 1)) / 2 = t &&& (t - 1) := by omega
    rw [Nat.testBit_land, Nat.testBit_succ, Nat.testBit_succ, Nat.testBit_succ,
      h1, h2, h3, Nat.testBit_land]

theorem land_odd_pred (t : Nat) : (2 * t + 1) &&& (2 * t) = 2 * t := by
  apply Nat.eq_of_testBit_eq
  intro i
  cases i with
  | zero =>
    simp [Nat.testBit_land, Nat.testBit_zero, Nat.mul_mod_right, Nat.mul_add_mod]
  | succ i =>
    have h1 : (2 * t + 1) / 2 = t := by omega
    have h2 : 2 * t / 2 = t := by omega
    rw [Nat.testBit_land]
    simp [Nat.testBit_succ, h1, h2]

theorem land_one_shiftLeft (c n : Nat) : decide (c &&& 1 <<< n ≠ 0) = c.testBit n := by
  have h1 : (1 : Nat) <<< n = 2 ^ n := by rw [Nat.shiftLeft_eq, one_mul]
  have h2 : c &&& 2 ^ n = if c.testBit n then 2 ^ n else 0 := by
    apply Nat.eq_of_testBit_eq
    intro i
    rw [Nat.testBit_land, Nat.testBit_two_pow]
    by_cases hc : c.testBit n
    · by_cases hni : n = i
      · subst hni; simp [hc]
      · simp [hni, hc, Nat.testBit_two_pow]
    · by_cases hni : n = i
      · subst hni; simp [hc]
      · simp [hni, hc, Nat.zero_testBit]
  rw [h1, h2]
  by_cases hc : c.testBit n
  · simp [hc, (Nat.two_pow_pos n).ne']
  · simp [hc]

/-- The ascending positions of the set bits of a word, produced by the same
lowest-set-bit recursion as the filter loop. -/
def lowBits (m : Nat) : List Nat :=
  if m = 0 then [] else ctz m :: lowBits (m &&& (m - 1))
termination_by m
decreasing_by
  rename_i h
  have hle : m &&& (m - 1) ≤ m - 1 := Nat.and_le_right
  omega

theorem filterChunkLoop_eq_map (c m : Nat) :
    filterChunkLoop c m = (lowBits m).map (fun n => c.testBit n) := by
  induction m using Nat.strong_induction_on with
  | _ m ih =>
    rw [filterChunkLoop, lowBits]
    by_cases h : m = 0
    · simp [h]
    · rw [if_neg h, if_neg h, List.map_cons, land_one_shiftLeft]
      have hlt : m &&& (m - 1) < m := by
        have hle : m &&& (m - 1) ≤ m - 1 := Nat.and_le_right
        omega
      rw [ih _ hlt]

theorem lowBits_two_mul (t : Nat) : lowBits (2 * t) = (lowBits t).map (· + 1) := by
  induction t using Nat.strong_induction_on with
  | _ t ih =>
    by_cases h : t = 0
    · subst h; rw [lowBits]; simp
    · have h2 : 2 * t ≠ 0 := by omega
      have hL : lowBits (2 * t) = ctz (2 * t) :: lowBits (2 * t &&& (2 * t - 1)) := by
        rw [lowBits]
        rw [if_neg h2]
      have hR : lowBits t = ctz t :: lowBits (t &&& (t - 1)) := by
        rw [lowBits]
        rw [if_neg h]
      have hctz : ctz (2 * t) = ctz t + 1 := by
        rw [ctz_even (2 * t) h2 (by omega)]
        congr 2
        omega
      have hlt : t &&& (t - 1) < t := by
        have hle : t &&& (t - 1) ≤ t - 1 := Nat.and_le_right
        omega
      rw [hL, hR, List.map_cons, hctz, land_two_mul_pred t, ih _ hlt]

theorem lowBits_odd (t : Nat) : lowBits (2 * t + 1) = 0 :: (lowBits t).map (· + 1) := by
  rw [lowBits, if_neg (by omega : 2 * t + 1 ≠ 0)]
  have hctz : ctz (2 * t + 1) = 0 := ctz_odd _ (by omega)
  have hland : (2 * t + 1) &&& (2 * t + 1 - 1) = 2 * t := by
    have : 2 * t + 1 - 1 = 2 * t := by omega
    rw [this, land_odd_pred]
  rw [hctz, hland, lowBits_two_mul]

/-! ## List-level lemmas about the selection functions -/

theorem maskFilter_nil_right (d : List Bool) : maskFilter d [] = [] := by
  simp [maskFilter, List.zip_nil_right]

theorem maskFilter_cons (a b : Bool) (dt mt : List Bool) :
    maskFilter (a :: dt) (b :: mt) =
      if b then a :: maskFilter dt mt else maskFilter dt mt := by
  cases b <;> simp [maskFilter, List.filterMap_cons]

theorem filterChunkLoop_bitsToNat (m d : List Bool) (h : d.length = m.length) :
    filterChunkLoop (bitsToNat d) (bitsToNat m) = maskFilter d m := by
  induction m generalizing d with
  | nil =>
    rw [show bitsToNat [] = 0 from rfl, filterChunkLoop]
    simp [maskFilter_nil_right]
  | cons b mt ih =>
    cases d with
    | nil => simp at h
    | cons a dt =>
      have hlen : dt.length = mt.length := by simpa using h
      rw [filterChunkLoop_eq_map, maskFilter_cons]
      cases b
      · rw [bitsToNat_cons_false, lowBits_two_mul, List.map_map]
        have hmap : ((lowBits (bitsToNat mt)).map
              ((fun n => (bitsToNat (a :: dt)).testBit n) ∘ (· + 1))) =
            (lowBits (bitsToNat mt)).map (fun n => (bitsToNat dt).testBit n) := by
          apply List.map_congr_left
          intro n _
          exact testBit_bitsToNat_cons a dt n
        rw [hmap, ← filterChunkLoop_eq_map, ih dt hlen]
        simp
      · rw [bitsToNat_cons_true, lowBits_odd, List.map_cons, List.map_map]
        have hhead : (bitsToNat (a :: dt)).testBit 0 = a := by
          rw [testBit_bitsToNat]
          simp
        have hmap : ((lowBits (bitsToNat mt)).map
              ((fun n => (bitsToNat (a :: dt)).testBit n) ∘ (· + 1))) =
            (lowBits (bitsToNat mt)).map (fun n => (bitsToNat dt).testBit n) := by
          apply List.map_congr_left
          intro n _
          exact testBit_bitsToNat_cons a dt n
        rw [hhead, hmap, ← filterChunkLoop_eq_map, ih dt hlen]
        simp

theorem maskFilter_append (d₁ m₁ d₂ m₂ : List Bool) (h : d₁.length = m₁.length) :
    maskFilter (d₁ ++ d₂) (m₁ ++ m₂) = maskFilter d₁ m₁ ++ maskFilter d₂ m₂ := by
  simp [maskFilter, List.zip_append h, List.filterMap_append]

theorem toChunks_filter_aux (n : Nat) :
    ∀ dl ml : List Bool, dl.length = ml.length → dl.length = n →
      (((toChunks dl).1.zip (toChunks ml).1).map (fun p => filterChunkLoop p.1 p.2)).flatten ++
          ((toChunks dl).2.zip (toChunks ml).2).filterMap
            (fun p => if p.2 then some p.1 else none) =
        maskFilter dl ml := by
  induction n using Nat.strong_induction_on with
  | _ n ih =>
    intro dl ml h hn
    subst hn
    by_cases hlt : dl.length < 64
    · rw [toChunks, if_pos hlt, toChunks, if_pos (by omega : ml.length < 64)]
      simp [maskFilter]
    · have hdl : toChunks dl =
          (bitsToNat (dl.take 64) :: (toChunks (dl.drop 64)).1, (toChunks (dl.drop 64)).2) := by
        rw [toChunks]
        simp [hlt]
      have hml : toChunks ml =
          (bitsToNat (ml.take 64) :: (toChunks (ml.drop 64)).1, (toChunks (ml.drop 64)).2) := by
        rw [toChunks]
        simp [show ¬ml.length < 64 by omega]
      rw [hdl, hml]
      simp only [List.zip_cons_cons, List.map_cons, List.flatten_cons, List.append_assoc]
      have htake : (dl.take 64).length = (ml.take 64).length := by
        simp [List.length_take]
        omega
      have h64 : (dl.take 64).length = 64 := by
        simp [List.length_take]
        omega
      have hdrop : (dl.drop 64).length = (ml.drop 64).length := by
        simp [List.length_drop]
        omega
      have hchunk : filterChunkLoop (bitsToNat (dl.take 64)) (bitsToNat (ml.take 64)) =
          maskFilter (dl.take 64) (ml.take 64) :=
        filterChunkLoop_bitsToNat _ _ htake
      have hrest := ih (dl.drop 64).length (by simp [List.length_drop]; omega)
        (dl.drop 64) (ml.drop 64) hdrop rfl
      rw [hchunk, hrest, ← maskFilter_append _ _ _ _ htake, List.take_append_drop,
        List.take_append_drop]

theorem toChunks_filter (dl ml : List Bool) (h : dl.length = ml.length) :
    (((toChunks dl).1.zip (toChunks ml).1).map (fun p => filterChunkLoop p.1 p.2)).flatten ++
        ((toChunks dl).2.zip (toChunks ml).2).filterMap
          (fun p => if p.2 then some p.1 else none) =
      maskFilter dl ml :=
  toChunks_filter_aux dl.length dl ml h rfl

theorem count_true_add_count_false (l : List Bool) :
    l.count true + l.count false = l.length := by
  induction l with
  | nil => simp
  | cons b t ih => cases b <;> simp [List.count_cons] <;> omega

theorem length_maskFilter (d m : List Bool) (h : d.length = m.length) :
    (maskFilter d m).length = m.count true := by
  induction m generalizing d with
  | nil => simp [maskFilter_nil_right]
  | cons b mt ih =>
    cases d with
    | nil => simp at h
    | cons a dt =>
      have hlen : dt.length = mt.length := by simpa using h
      rw [maskFilter_cons]
      cases b <;> simp [List.count_cons, ih dt hlen]

theorem maskFilter_allTrue (d m : List Bool) (hall : ∀ b ∈ m, b = true)
    (h : d.length = m.length) : maskFilter d m = d := by
  induction m generalizing d with
  | nil =>
    cases d with
    | nil => simp [maskFilter_nil_right]
    | cons a dt => simp at h
  | cons b mt ih =>
    cases d with
    | nil => simp at h
    | cons a dt =>
      have hb : b = true := hall b (by simp)
      subst hb
      rw [maskFilter_cons, if_pos rfl,
        ih dt (fun x hx => hall x (by simp [hx])) (by simpa using h)]

/-! ## The filter claims -/

/-- C1: for every `BooleanColumn` `c` and boolean mask `m` with
`m.len() == c.len()`, the value sequence of `c.filter(m)` equals the
subsequence of `c`'s values at exactly the positions where `m`'s bit is
set, taken in ascending index order; consequently `c.filter(m).len()`
equals the number of set bits of `m`. -/
theorem filter_correct (c m : BooleanColumn) (hc : c.wf) (hm : m.wf)
    (hlen : m.len = c.len) :
    (c.filter m).vals = maskFilter c.vals m.vals ∧
      (c.filter m).len = m.vals.count true := by
  have hmv : m.vals.length = m.len := Bitmap.length_toList m.values hm
  have hcv : c.vals.length = c.len := Bitmap.length_toList c.values hc
  have hcount := count_true_add_count_false m.vals
  have hml : m.values.length = m.len := rfl
  have hnullc : m.values.nullCount = m.vals.count false := rfl
  simp only [BooleanColumn.filter]
  by_cases hfast : m.values.length - m.values.nullCount = c.len
  · rw [if_pos hfast]
    have hallcount : m.vals.count true = m.vals.length := by omega
    have hall : ∀ b ∈ m.vals, b = true := fun b hb =>
      (List.count_eq_length.mp hallcount b hb).symm
    refine ⟨?_, by omega⟩
    rw [maskFilter_allTrue c.vals m.vals hall (by omega)]
  · rw [if_neg hfast]
    have hlen2 : c.vals.length = m.vals.length := by omega
    have hmt := toChunks_filter c.vals m.vals hlen2
    constructor
    · simp only [BooleanColumn.vals, Bitmap.toList_ofList]
      exact hmt
    · simp only [BooleanColumn.len, Bitmap.ofList]
      rw [show ((((toChunks c.values.toList).1.zip (toChunks m.values.toList).1).map
            (fun p => filterChunkLoop p.1 p.2)).flatten ++
            ((toChunks c.values.toList).2.zip (toChunks m.values.toList).2).filterMap
              (fun p => if p.2 then some p.1 else none)) =
          maskFilter c.vals m.vals from hmt]
      exact length_maskFilter c.vals m.vals hlen2

/-- Witness for C1 at spec scenario 1: `c = [T,F,T,T,F]`,
`m = [T,F,T,F,F]`, where the kept subsequence is `[T,T]`. -/
theorem filter_correct_witness :
    ((BooleanColumn.fromSlice [true, false, true, true, false]).filter
        (BooleanColumn.fromSlice [true, false, true, false, false])).vals =
      maskFilter [true, false, true, true, false] [true, false, true, false, false] ∧
    ((BooleanColumn.fromSlice [true, false, true, true, false]).filter
        (BooleanColumn.fromSlice [true, false, true, false, false])).len = 2 := by
  have h := filter_correct
    (BooleanColumn.fromSlice [true, false, true, true, false])
    (BooleanColumn.fromSlice [true, false, true, false, false])
    (by decide) (by decide) (by decide)
  refine ⟨?_, ?_⟩
  · rw [h.1, BooleanColumn.vals_fromSlice, BooleanColumn.vals_fromSlice]
  · rw [h.2, BooleanColumn.vals_fromSlice]
    decide

/-- C2: under an all-true mask of the column's length, `filter` takes the
fast path and returns the receiver itself unchanged — the result is the
very same column value (sharing the same bitmap), so its values are
identical to `c`'s. -/
theorem filter_all_true_identity (c m : BooleanColumn) (hm : m.wf)
    (hlen : m.len = c.len) (hall : ∀ b ∈ m.vals, b = true) :
    c.filter m = c := by
  have hmv : m.vals.length = m.len := Bitmap.length_toList m.values hm
  have hml : m.values.length = m.len := rfl
  have hnull : m.values.nullCount = 0 := by
    have hmem : false ∉ m.vals := fun hmem => by
      have := hall false hmem
      simp at this
    have : m.vals.count false = 0 := List.count_eq_zero.mpr hmem
    exact this
  simp only [BooleanColumn.filter]
  rw [if_pos (by omega : m.values.length - m.values.nullCount = c.len)]

/-- Witness for C2 at spec scenario 2: `c = [T,F,T]`, `m = [T,T,T]` gives
back `c` itself. -/
theorem filter_all_true_identity_witness :
    (BooleanColumn.fromSlice [true, false, true]).filter
        (BooleanColumn.fromSlice [true, true, true]) =
      BooleanColumn.fromSlice [true, false, true] :=
  filter_all_true_identity
    (BooleanColumn.fromSlice [true, false, true])
    (BooleanColumn.fromSlice [true, true, true])
    (by decide) (by decide) (by decide)

/-! ## The slice claims -/

/-- C3: for in-bounds `(offset, length)` (the `usize` column length rules
out wrap-around), `c.slice(offset, length)` succeeds with a column of
length exactly `length` whose value at every `i < length` is `c`'s value at
`offset + i`, and whose bitmap shares `c`'s backing buffer unchanged (no
bit data is copied). -/
theorem slice_correct (c : BooleanColumn) (offset length : Nat)
    (hb : offset + length ≤ c.len) (hsize : c.len < USIZE) :
    ∃ r, c.slice offset length = some r ∧
      r.len = length ∧
      r.vals = (c.vals.drop offset).take length ∧
      (∀ i, i < length → r.vals.getD i false = c.vals.getD (offset + i) false) ∧
      r.values.bytes = c.values.bytes := by
  have hcl : c.len = c.values.length := rfl
  have hvals : (⟨c.values.sliceUnchecked offset length⟩ : BooleanColumn).vals =
      (c.vals.drop offset).take length := by
    simp only [BooleanColumn.vals, Bitmap.toList, Bitmap.sliceUnchecked]
    rw [List.drop_take, List.take_take, List.drop_drop]
    congr 1
    have : length ≤ c.values.length - offset := by omega
    exact (min_eq_left this).symm
  refine ⟨⟨c.values.sliceUnchecked offset length⟩, ?_, rfl, hvals, ?_, rfl⟩
  · simp only [BooleanColumn.slice]
    rw [if_pos]
    rw [Nat.mod_eq_of_lt (by omega)]
    exact hb
  · intro i hi
    rw [hvals, List.getD_eq_getElem?_getD, List.getD_eq_getElem?_getD,
      List.getElem?_take, if_pos hi, List.getElem?_drop]

/-- Witness for C3 at spec scenario 5: `c = [T,F,T]`, `c.slice(1,2) = [F,T]`. -/
theorem slice_correct_witness :
    ∃ r, (BooleanColumn.fromSlice [true, false, true]).slice 1 2 = some r ∧
      r.len = 2 ∧
      r.vals = (((BooleanColumn.fromSlice [true, false, true]).vals.drop 1).take 2) ∧
      (∀ i, i < 2 → r.vals.getD i false =
        (BooleanColumn.fromSlice [true, false, true]).vals.getD (1 + i) false) ∧
      r.values.bytes = (BooleanColumn.fromSlice [true, false, true]).values.bytes :=
  slice_correct (BooleanColumn.fromSlice [true, false, true]) 1 2 (by decide) (by decide)

/-- C4 counterexample: the claim demands that `slice` reject every pair
whose true (unbounded) sum `offset + length` exceeds `c.len()`, even when
the machine addition wraps.  It does not: with `c` the empty column,
`offset = 2^64 - 1` and `length = 1`, the release-mode `usize` sum wraps to
`0`, the assert passes, and the unchecked-slice branch is reached, although
`offset + length > c.len()`. -/
theorem slice_overflow_counterexample :
    (BooleanColumn.fromSlice []).len < USIZE - 1 + 1 ∧
      (BooleanColumn.fromSlice []).slice (USIZE - 1) 1 ≠ none := by
  constructor
  · decide
  · decide

/-- C4 amended: the assert compares the wrapped machine sum
`(offset + length) mod 2^64` against `c.len()` — `slice` fails exactly when
the wrapped sum exceeds the length, so the unchecked-slice branch is
reachable precisely when the wrapped sum is within bounds; for pairs whose
true sum does not overflow this is the claimed condition
`offset + length <= c.len()`. -/
theorem slice_guard_wrapped (c : BooleanColumn) (offset length : Nat) :
    c.slice offset length = none ↔ (offset + length) % USIZE > c.len := by
  simp only [BooleanColumn.slice]
  by_cases h : (offset + length) % USIZE ≤ c.len
  · rw [if_pos h]
    simp
    omega
  · rw [if_neg h]
    simp
    omega

/-! ## Interop and construction claims -/

/-- C7: converting a boolean column to the foreign arrow representation and
back yields a column with identical length and identical value sequence
(the pair is a round trip on logical values; here the very same bitmap is
carried through). -/
theorem arrow_round_trip (c : BooleanColumn) :
    (BooleanColumn.fromArrowArray c.asArrowArray).len = c.len ∧
      (BooleanColumn.fromArrowArray c.asArrowArray).vals = c.vals :=
  ⟨rfl, rfl⟩

/-- C9: `from_owned_iterator` builds the same column as `from_iterator` on
the same underlying sequence, on both sides of the size-hint dispatch
(trusted-length fast path and generic path alike). -/
theorem from_owned_iterator_eq_from_iterator (it : BoolIterator) :
    BooleanColumn.fromOwnedIterator it = BooleanColumn.fromIterator it.items ∧
      (BooleanColumn.fromOwnedIterator it).len = it.items.length ∧
      (BooleanColumn.fromOwnedIterator it).vals = it.items := by
  have h : BooleanColumn.fromOwnedIterator it = BooleanColumn.fromIterator it.items := by
    cases hh : it.sizeHintUpper <;>
      simp [BooleanColumn.fromOwnedIterator, hh, MutableBitmap.fromTrustedLenIterUnchecked,
        BooleanColumn.fromIterator]
  refine ⟨h, ?_, ?_⟩
  · rw [h]
    rfl
  · rw [h]
    exact Bitmap.toList_ofList it.items

/-- C10: `from_slice` preserves length and every value, and single-row
access on the result always yields the `Boolean` variant holding that
value. -/
theorem from_slice_get (data : List Bool) :
    (BooleanColumn.fromSlice data).len = data.length ∧
      ∀ i, i < data.length →
        (BooleanColumn.fromSlice data).getData i = data.getD i false ∧
        (BooleanColumn.fromSlice data).get i = DataValue.Boolean (data.getD i false) := by
  refine ⟨rfl, fun i _ => ⟨?_, ?_⟩⟩
  · simp [BooleanColumn.getData, Bitmap.getBit, BooleanColumn.fromSlice, Bitmap.toList_ofList]
  · simp [BooleanColumn.get, Bitmap.getBit, BooleanColumn.fromSlice, Bitmap.toList_ofList]

/-! ## The scatter claim -/

theorem MutableBooleanColumn.vals_toColumn (b : MutableBooleanColumn) :
    b.toColumn.vals = b.values :=
  Bitmap.toList_ofList b.values

theorem getD_map {α β : Type} (f : α → β) (l : List α) (j : Nat) (d : α) :
    (l.map f).getD j (f d) = f (l.getD j d) := by
  rw [List.getD_eq_getElem?_getD, List.getD_eq_getElem?_getD, List.getElem?_map]
  cases h : l[j]? <;> rfl

theorem scatterSpec_cons (i : Nat) (v : Bool) (rest : List (Nat × Bool)) (j : Nat) :
    scatterSpec ((i, v) :: rest) j =
      if i = j then v :: scatterSpec rest j else scatterSpec rest j := by
  by_cases h : i = j <;> simp [scatterSpec, List.filterMap_cons, h]

theorem scatterLoop_length (pairs : List (Nat × Bool)) (bs : List MutableBooleanColumn) :
    (scatterLoop pairs bs).length = bs.length := by
  induction pairs generalizing bs with
  | nil => rfl
  | cons p rest ih =>
    rw [show scatterLoop (p :: rest) bs =
        scatterLoop rest (bs.set p.1 ((bs.getD p.1 ⟨[]⟩).appendValue p.2)) from rfl,
      ih, List.length_set]

theorem scatterLoop_getD (pairs : List (Nat × Bool)) (bs : List MutableBooleanColumn) (j : Nat)
    (hp : ∀ p ∈ pairs, p.1 < bs.length) (hj : j < bs.length) :
    (scatterLoop pairs bs).getD j ⟨[]⟩ =
      ⟨(bs.getD j ⟨[]⟩).values ++ scatterSpec pairs j⟩ := by
  induction pairs generalizing bs with
  | nil =>
    show bs.getD j ⟨[]⟩ = _
    simp [scatterSpec]
  | cons p rest ih =>
    obtain ⟨i, v⟩ := p
    have hi : i < bs.length := hp (i, v) (by simp)
    have hset : (bs.set i ((bs.getD i ⟨[]⟩).appendValue v)).length = bs.length :=
      List.length_set bs i _
    have hstep : scatterLoop ((i, v) :: rest) bs =
        scatterLoop rest (bs.set i ((bs.getD i ⟨[]⟩).appendValue v)) := rfl
    rw [hstep, ih _ (fun q hq => by rw [hset]; exact hp q (by simp [hq])) (by omega),
      scatterSpec_cons]
    by_cases hij : i = j
    · subst hij
      rw [if_pos rfl, List.getD_eq_getElem?_getD, List.getElem?_set_self hi,
        Option.getD_some, List.getD_eq_getElem?_getD]
      simp [MutableBooleanColumn.appendValue]
    · rw [if_neg hij, List.getD_eq_getElem?_getD, List.getElem?_set_ne hij,
        ← List.getD_eq_getElem?_getD]

theorem sum_scatterSpec (pairs : List (Nat × Bool)) (n : Nat)
    (h : ∀ p ∈ pairs, p.1 < n) :
    (∑ j in Finset.range n, (scatterSpec pairs j : Multiset Bool)) =
      (pairs.map Prod.snd : Multiset Bool) := by
  induction pairs with
  | nil => simp [scatterSpec]
  | cons p rest ih =>
    obtain ⟨i, v⟩ := p
    have hi : i < n := h (i, v) (by simp)
    have hrec := ih (fun q hq => h q (by simp [hq]))
    have hsplit : ∀ j, (scatterSpec ((i, v) :: rest) j : Multiset Bool) =
        (if j = i then ({v} : Multiset Bool) else 0) + (scatterSpec rest j : Multiset Bool) := by
      intro j
      rw [scatterSpec_cons]
      by_cases hij : i = j
      · subst hij
        rw [if_pos rfl, if_pos rfl, Multiset.singleton_add, Multiset.cons_coe]
      · rw [if_neg hij, if_neg (fun hji => hij hji.symm), zero_add]
    rw [Finset.sum_congr rfl (fun j _ => hsplit j), Finset.sum_add_distrib,
      Finset.sum_ite_eq' (Finset.range n) i (fun _ => ({v} : Multiset Bool)),
      if_pos (Finset.mem_range.mpr hi), hrec, List.map_cons, Multiset.singleton_add,
      Multiset.cons_coe]

/-- C5: with per-row destination indices all below `partition_count` and as
many indices as rows, `scatter` returns exactly `partition_count` columns;
partition `j` holds, in source order, precisely the values of the rows
destined for `j` (order preservation), and the multiset union of all
partitions' values is the multiset of `c`'s values (each source row appears
exactly once across the outputs). -/
theorem scatter_correct (c : BooleanColumn) (indices : List Nat) (n : Nat)
    (hwf : c.wf) (hlen : indices.length = c.len) (hidx : ∀ i ∈ indices, i < n) :
    (c.scatter indices n).length = n ∧
      (∀ j, j < n → ((c.scatter indices n).getD j (BooleanColumn.fromSlice [])).vals =
        scatterSpec (indices.zip c.vals) j) ∧
      (∑ j in Finset.range n,
          (((c.scatter indices n).getD j (BooleanColumn.fromSlice [])).vals : Multiset Bool)) =
        (c.vals : Multiset Bool) := by
  have hvl : c.vals.length = c.len := Bitmap.length_toList c.values hwf
  have hp : ∀ p ∈ indices.zip c.vals, p.1 < n := by
    intro p hmem
    obtain ⟨a, b⟩ := p
    exact hidx a (List.of_mem_zip hmem).1
  have hLlen : (scatterLoop (indices.zip c.vals)
      (List.replicate n (MutableBooleanColumn.withCapacity c.len))).length = n := by
    rw [scatterLoop_length, List.length_replicate]
  have hlen1 : (c.scatter indices n).length = n := by
    simp only [BooleanColumn.scatter, ← BooleanColumn.vals_def]
    rw [List.length_map]
    exact hLlen
  have houts : ∀ j, j < n →
      ((c.scatter indices n).getD j (BooleanColumn.fromSlice [])).vals =
        scatterSpec (indices.zip c.vals) j := by
    intro j hj
    simp only [BooleanColumn.scatter, ← BooleanColumn.vals_def]
    rw [show BooleanColumn.fromSlice [] = MutableBooleanColumn.toColumn ⟨[]⟩ from rfl,
      getD_map MutableBooleanColumn.toColumn _ j ⟨[]⟩, MutableBooleanColumn.vals_toColumn,
      scatterLoop_getD _ _ j (by rw [List.length_replicate]; exact hp)
        (by rw [List.length_replicate]; exact hj)]
    have hbs : (List.replicate n (MutableBooleanColumn.withCapacity c.len)).getD j ⟨[]⟩ =
        MutableBooleanColumn.withCapacity c.len := by
      rw [List.getD_eq_getElem?_getD,
        List.getElem?_eq_getElem (by rw [List.length_replicate]; exact hj),
        List.getElem_replicate, Option.getD_some]
    rw [hbs]
    rfl
  refine ⟨hlen1, houts, ?_⟩
  rw [Finset.sum_congr rfl (fun j hj => by rw [houts j (Finset.mem_range.mp hj)]),
    sum_scatterSpec _ n hp, List.map_snd_zip indices c.vals (by omega)]

/-- Witness for C5 at spec scenario 3: `c = [T,F,T,F]`,
`indices = [0,1,0,1]`, `partition_count = 2` — partition 0 is `[T,T]`,
partition 1 is `[F,F]`. -/
theorem scatter_correct_witness :
    ((BooleanColumn.fromSlice [true, false, true, false]).scatter [0, 1, 0, 1] 2).length = 2 ∧
      (((BooleanColumn.fromSlice [true, false, true, false]).scatter [0, 1, 0, 1] 2).getD 0
          (BooleanColumn.fromSlice [])).vals =
        scatterSpec ([0, 1, 0, 1].zip (BooleanColumn.fromSlice [true, false, true, false]).vals) 0 ∧
      (((BooleanColumn.fromSlice [true, false, true, false]).scatter [0, 1, 0, 1] 2).getD 1
          (BooleanColumn.fromSlice [])).vals =
        scatterSpec ([0, 1, 0, 1].zip (BooleanColumn.fromSlice [true, false, true, false]).vals) 1 ∧
      scatterSpec ([0, 1, 0, 1].zip [true, false, true, false]) 0 = [true, true] ∧
      scatterSpec ([0, 1, 0, 1].zip [true, false, true, false]) 1 = [false, false] := by
  have h := scatter_correct (BooleanColumn.fromSlice [true, false, true, false]) [0, 1, 0, 1] 2
    (by decide) (by decide) (by decide)
  exact ⟨h.1, h.2.1 0 (by decide), h.2.1 1 (by decide), by decide, by decide⟩

/-! ## The replicate claim -/

theorem runsFrom_cons (prev o : Nat) (v : Bool) (vs : List Bool) (os : List Nat) :
    runsFrom prev (v :: vs) (o :: os) = List.replicate (o - prev) v ++ runsFrom o vs os :=
  rfl

theorem runsFrom_nil (prev : Nat) (os : List Nat) : runsFrom prev [] os = [] :=
  rfl

theorem runsFrom_nil_offsets (prev : Nat) (vs : List Bool) : runsFrom prev vs [] = [] := by
  cases vs <;> rfl

theorem runsFrom_snoc (vs : List Bool) (os : List Nat) (prev : Nat) (v : Bool) (o : Nat)
    (h : vs.length = os.length) :
    runsFrom prev (vs ++ [v]) (os ++ [o]) =
      runsFrom prev vs os ++ List.replicate (o - os.getLastD prev) v := by
  induction vs generalizing os prev with
  | nil =>
    cases os with
    | nil => simp [runsFrom_cons, runsFrom_nil]
    | cons o' os' => simp at h
  | cons v' vs' ih =>
    cases os with
    | nil => simp at h
    | cons o' os' =>
      rw [List.cons_append, List.cons_append, runsFrom_cons, runsFrom_cons,
        ih os' o' (by simpa using h), List.getLastD_cons, List.append_assoc]

theorem replicateLoop_spec (vals : List Bool) (offsets : List Nat) :
    ∀ n, n ≤ vals.length → n ≤ offsets.length →
      (List.range n).foldl
          (fun (st : List Bool × Nat) i =>
            (st.1 ++ List.replicate (offsets.getD i 0 - st.2) (vals.getD i false),
              offsets.getD i 0))
          ([], 0) =
        (runsFrom 0 (vals.take n) (offsets.take n), (offsets.take n).getLastD 0) := by
  intro n
  induction n with
  | zero =>
    intro _ _
    simp [runsFrom_nil]
  | succ k ih =>
    intro h1 h2
    rw [List.range_succ, List.foldl_append, ih (by omega) (by omega)]
    simp only [List.foldl_cons, List.foldl_nil]
    have hkv : k < vals.length := by omega
    have hko : k < offsets.length := by omega
    have hgv : vals.getD k false = vals[k] := by
      rw [List.getD_eq_getElem?_getD, List.getElem?_eq_getElem hkv, Option.getD_some]
    have hgo : offsets.getD k 0 = offsets[k] := by
      rw [List.getD_eq_getElem?_getD, List.getElem?_eq_getElem hko, Option.getD_some]
    have htv : vals.take (k + 1) = vals.take k ++ [vals[k]] := by
      rw [List.take_succ, List.getElem?_eq_getElem hkv, Option.toList_some]
    have hto : offsets.take (k + 1) = offsets.take k ++ [offsets[k]] := by
      rw [List.take_succ, List.getElem?_eq_getElem hko, Option.toList_some]
    rw [hgv, hgo, htv, hto,
      runsFrom_snoc _ _ _ _ _ (by rw [List.length_take, List.length_take]; omega),
      List.getLastD_concat]

theorem runsFrom_length (vs : List Bool) (os : List Nat) (prev : Nat)
    (h : vs.length = os.length) (hmono : List.Pairwise (· ≤ ·) (prev :: os)) :
    (runsFrom prev vs os).length = os.getLastD prev - prev := by
  induction vs generalizing os prev with
  | nil =>
    cases os with
    | nil => simp [runsFrom_nil]
    | cons o' os' => simp at h
  | cons v vs' ih =>
    cases os with
    | nil => simp at h
    | cons o os' =>
      have h1 : prev ≤ o := (List.pairwise_cons.mp hmono).1 o (by simp)
      have hmono' : List.Pairwise (· ≤ ·) (o :: os') := (List.pairwise_cons.mp hmono).2
      have h2 : o ≤ os'.getLastD o := by
        have hmem := List.getLastD_mem_cons os' o
        rcases List.mem_cons.mp hmem with heq | hmem'
        · omega
        · exact (List.pairwise_cons.mp hmono').1 _ hmem'
      rw [runsFrom_cons, List.length_append, List.length_replicate,
        ih os' o (by simpa using h) hmono', List.getLastD_cons]
      omega

/-- C6: for non-decreasing `offsets` with one entry per row, `replicate`
succeeds with a column of length `offsets.last()` (0 for no rows), whose
contents are the concatenation, in row order, of runs `offsets[i] -
offsets[i-1]` long (with `offsets[-1] = 0`) of row `i`'s value. -/
theorem replicate_correct (c : BooleanColumn) (offsets : List Nat) (hwf : c.wf)
    (hmono : List.Sorted (· ≤ ·) offsets) (hlen : offsets.length = c.len) :
    ∃ r, c.replicate offsets = some r ∧
      r.len = offsets.getLastD 0 ∧
      r.vals = runsFrom 0 c.vals offsets := by
  have htl : c.values.toList.length = c.len := Bitmap.length_toList c.values hwf
  by_cases hemp : offsets = []
  · subst hemp
    refine ⟨⟨c.values.sliceUnchecked 0 0⟩, ?_, rfl, ?_⟩
    · simp only [BooleanColumn.replicate, if_pos rfl, BooleanColumn.slice]
      have hguard : (0 + 0) % USIZE ≤ c.len := by simp
      rw [if_pos hguard]
      simp
    · rw [runsFrom_nil_offsets]
      simp [BooleanColumn.vals, Bitmap.toList, Bitmap.sliceUnchecked]
  · have hvlen : c.len ≤ c.values.toList.length := by omega
    have holen : c.len ≤ offsets.length := by omega
    have htake1 : c.values.toList.take c.len = c.values.toList := by
      rw [← htl, List.take_length]
    have htake2 : offsets.take c.len = offsets := by
      rw [← hlen, List.take_length]
    have hpair : List.Pairwise (· ≤ ·) (0 :: offsets) :=
      List.pairwise_cons.mpr ⟨fun _ _ => Nat.zero_le _, hmono⟩
    simp only [BooleanColumn.replicate, if_neg hemp, Bitmap.getBit]
    rw [replicateLoop_spec c.values.toList offsets c.len hvlen holen, htake1, htake2]
    refine ⟨_, rfl, ?_, ?_⟩
    · show (runsFrom 0 c.values.toList offsets).length = offsets.getLastD 0
      rw [runsFrom_length c.values.toList offsets 0 (by omega) hpair, Nat.sub_zero]
    · show (Bitmap.ofList (runsFrom 0 c.values.toList offsets)).toList =
        runsFrom 0 c.vals offsets
      rw [Bitmap.toList_ofList, BooleanColumn.vals_def]

/-- Witness for C6 at spec scenario 4: `c = [T,F]`, `offsets = [2,3]` gives
`[T,T,F]`. -/
theorem replicate_correct_witness :
    (∃ r, (BooleanColumn.fromSlice [true, false]).replicate [2, 3] = some r ∧
        r.len = ([2, 3] : List Nat).getLastD 0 ∧
        r.vals = runsFrom 0 (BooleanColumn.fromSlice [true, false]).vals [2, 3]) ∧
      runsFrom 0 [true, false] [2, 3] = [true, true, false] :=
  ⟨replicate_correct (BooleanColumn.fromSlice [true, false]) [2, 3]
      (by decide) (by decide) (by decide),
    by decide⟩

/-- Witness for C10 at `data = [T,F]`, `i = 1`. -/
theorem from_slice_get_witness :
    (BooleanColumn.fromSlice [true, false]).getData 1 = false ∧
      (BooleanColumn.fromSlice [true, false]).get 1 = DataValue.Boolean false := by
  have h := (from_slice_get [true, false]).2 1 (by decide)
  constructor
  · rw [h.1]
    decide
  · rw [h.2]
    decide

end Databend
